import Mathlib

/-!
Shallow embedding of the DBEngine storage engine core
(`src/storage_engine/page.h`, `diskmanager.{h,cpp}`, `bufferpool.{h,cpp}`).

Modelling conventions:
* C++ `int` values are modelled as `Int`.  Every computation the source
  performs in a fixed-width type whose wrap-around is observable is
  modelled with the wrap made explicit (`toInt32` / `toUInt64`): the
  `DiskManager` offset products, `Page::getFreeSpace`'s `size_t`/`int`
  conversions, and `insertRecord`'s `int requiredSpace = length +
  sizeof(Slot)`.  Exactness lemmas (`getFreeSpace_exact`,
  `requiredSpace_exact`) recover the ideal arithmetic on the bounded
  domains where the wrap cannot fire.
* The `char data[PAGE_SIZE - sizeof(PageHeader)]` array is a `List Int` of
  length `PAGE_SIZE - sizeof(PageHeader)`; `memcpy`/`memmove` become
  take/append/drop surgery on that list.
* On x86-64, `sizeof(PageHeader)` = 24 (int 4, bool 1 + 3 padding, long 8,
  int 4, int 4) and `sizeof(Slot)` = 12 (int 4, int 4, bool 1 + 3 padding).
* Reading past the end of a caller-supplied record buffer and out-of-range
  `std::vector` indexing are undefined behaviour in C++; the model totalises
  them (zero padding / a no-op fallback) and the theorems' hypotheses keep
  the interesting statements away from those branches.
-/

def PAGE_SIZE : Int := 4096

/-- Packed size of `PageHeader` on x86-64 (`sizeof(PageHeader)` = 24). -/
def sizeofPageHeader : Int := 24

/-- Packed size of `Slot` on x86-64 (`sizeof(Slot)` = 12). -/
def sizeofSlot : Int := 12

/-- Size of the `data` area: `PAGE_SIZE - sizeof(PageHeader)`. -/
def Dsize : Int := PAGE_SIZE - sizeofPageHeader

/-- `Dsize` as a natural number (list length of the `data` array). -/
def DsizeNat : Nat := 4072

/-- Two's-complement wrap into a 32-bit signed `int`.  (Signed overflow is
formally UB in C++ and the out-of-range part of an unsigned-to-`int`
conversion implementation-defined; this is the universal two's-complement
behaviour.) -/
def toInt32 (x : Int) : Int := (x + 2 ^ 31) % 2 ^ 32 - 2 ^ 31

/-- Two's-complement wrap into a 64-bit signed `long`. -/
def toInt64 (x : Int) : Int := (x + 2 ^ 63) % 2 ^ 64 - 2 ^ 63

/-- Conversion to `size_t` (unsigned 64-bit): value modulo `2^64`. -/
def toUInt64 (x : Int) : Int := x % 2 ^ 64

/-- Slot entry for each record in the page (`struct Slot`). -/
structure Slot where
  offset : Int
  length : Int
  isValid : Bool
deriving DecidableEq, Repr

/-- Page header holding the fixed metadata (`struct PageHeader`). -/
structure PageHeader where
  pageId : Int
  dirty : Bool
  lsn : Int
  freeSpaceOffset : Int
  numberOfSlots : Int
deriving DecidableEq, Repr

/-- The in-memory `Page`: header, data area, in-memory slot directory. -/
structure Page where
  header : PageHeader
  data : List Int
  slotDirectory : List Slot
deriving DecidableEq, Repr

/-- The `Page()` constructor / `clear()` state: id `-1`, zeroed data area,
empty slot directory. -/
def Page.empty : Page :=
  { header := { pageId := -1, dirty := false, lsn := 0,
                freeSpaceOffset := 0, numberOfSlots := 0 },
    data := List.replicate DsizeNat 0,
    slotDirectory := [] }

def Page.getPageId (p : Page) : Int := p.header.pageId

def Page.setPageId (p : Page) (id : Int) : Page :=
  { p with header := { p.header with pageId := id } }

/-- `Page::getFreeSpace`: distance from `freeSpaceOffset` to the start of
the slot directory, with the source's machine arithmetic:
`header.numberOfSlots * sizeof(Slot)` is `int * size_t` and is computed in
`size_t` (the `int` is first converted, modulo `2^64`), the subtraction
`dataAreaSize - ...` is likewise carried out in `size_t`, the result is
converted back to the `int` variable `slotDirStart` (two's-complement
truncation), and the final `int` subtraction wraps the same way. -/
def Page.getFreeSpace (p : Page) : Int :=
  let dataAreaSize : Int := PAGE_SIZE - sizeofPageHeader
  let slotDirStart : Int :=
    toInt32 (toUInt64 (toUInt64 dataAreaSize
      - toUInt64 (toUInt64 p.header.numberOfSlots * sizeofSlot)))
  toInt32 (slotDirStart - p.header.freeSpaceOffset)

/-- Exactly `n` bytes taken from `record` (`memcpy` source). Reading past the
end of the caller's buffer is UB in C++; the model pads with zeros. -/
def bytesExact (record : List Int) (n : Nat) : List Int :=
  record.take n ++ List.replicate (n - record.length) 0

/-- `Page::insertRecord`. Returns the updated page and the C++ return value
(slot id on success, `-1` when there is not enough free space). -/
def Page.insertRecord (p : Page) (record : List Int) (length : Int) :
    Page × Int :=
  -- `int requiredSpace = length + sizeof(Slot);`: the `int` is converted to
  -- `size_t`, the sum computed modulo 2^64, and the result converted back
  -- to `int` (two's-complement truncation), so it wraps negative for
  -- `length` in `[2^31 - 12, 2^31 - 1]`.
  let requiredSpace := toInt32 (toUInt64 (toUInt64 length + sizeofSlot))
  if p.getFreeSpace < requiredSpace then (p, -1)
  else
    let fsoN := p.header.freeSpaceOffset.toNat
    let lenN := length.toNat
    let newSlot : Slot :=
      { offset := p.header.freeSpaceOffset, length := length, isValid := true }
    let data' :=
      p.data.take fsoN ++ bytesExact record lenN ++ p.data.drop (fsoN + lenN)
    let header' :=
      { p.header with
          numberOfSlots := p.header.numberOfSlots + 1,
          freeSpaceOffset := p.header.freeSpaceOffset + length,
          dirty := true }
    ({ header := header', data := data',
       slotDirectory := p.slotDirectory ++ [newSlot] },
     header'.numberOfSlots - 1)

/-- `Page::getRecord`. Returns the bytes copied into the caller's buffer and
the C++ return value (`slot.length`, or `-1` on failure). -/
def Page.getRecord (p : Page) (slotId : Int) : List Int × Int :=
  if slotId < 0 ∨ p.header.numberOfSlots ≤ slotId then ([], -1)
  else
    match p.slotDirectory.get? slotId.toNat with
    | none => ([], -1)
    | some slot =>
      if slot.isValid = false then ([], -1)
      else ((p.data.drop slot.offset.toNat).take slot.length.toNat, slot.length)

/-- Updates every element of a slot list by its index, starting at index `i`
(model of the `for (int i = ...)` loop over `slotDirectory`). -/
def mapFrom (f : Nat → Slot → Slot) : Nat → List Slot → List Slot
  | _, [] => []
  | i, t :: l => f i t :: mapFrom f (i + 1) l

/-- `Page::deleteRecord`. Returns the updated page and the C++ `bool`. -/
def Page.deleteRecord (p : Page) (slotId : Int) : Page × Bool :=
  if slotId < 0 ∨ p.header.numberOfSlots ≤ slotId then (p, false)
  else
    match p.slotDirectory.get? slotId.toNat with
    | none => (p, false)
    | some slotToDelete =>
      if slotToDelete.isValid = false then (p, false)
      else
        let recordOffset := slotToDelete.offset
        let recordLength := slotToDelete.length
        let bytesAfter :=
          p.header.freeSpaceOffset - (recordOffset + recordLength)
        let offN := recordOffset.toNat
        let lenN := recordLength.toNat
        let baN := bytesAfter.toNat
        let data' :=
          if 0 < bytesAfter then
            p.data.take offN ++ (p.data.drop (offN + lenN)).take baN
              ++ p.data.drop (offN + baN)
          else p.data
        let erased := p.slotDirectory.eraseIdx slotId.toNat
        let slots' :=
          mapFrom (fun i t =>
            if slotId.toNat ≤ i ∧ (i : Int) < p.header.numberOfSlots - 1 then
              { t with offset := t.offset - recordLength }
            else t) 0 erased
        let header' :=
          { p.header with
              freeSpaceOffset := p.header.freeSpaceOffset - recordLength,
              numberOfSlots := p.header.numberOfSlots - 1,
              dirty := true }
        ({ header := header', data := data', slotDirectory := slots' }, true)

/-- The observable content of the `PAGE_SIZE` byte buffer written by
`Page::serialize`: the header bytes, the `freeSpaceOffset` record bytes that
follow it, and the `numberOfSlots` slot entries packed at the tail.  The
bytes between the record region and the slot region are never written by
`serialize` nor read by `deserialize`, so they are not part of the model. -/
structure PageBuffer where
  hdr : PageHeader
  recBytes : List Int
  slots : List Slot
deriving DecidableEq, Repr

/-- Truncate or zero-pad a byte list to exactly `n` entries (reading bytes
`deserialize` consumes beyond what `serialize` wrote is modelled as zeros). -/
def padTruncBytes (l : List Int) (n : Nat) : List Int :=
  l.take n ++ List.replicate (n - l.length) 0

/-- Truncate or pad a slot list to exactly `n` entries (the padding models
bytes of the buffer that `serialize` did not write). -/
def padTruncSlots (l : List Slot) (n : Nat) : List Slot :=
  l.take n ++ List.replicate (n - l.length) { offset := 0, length := 0, isValid := false }

/-- `Page::serialize`: header, then `data[0..freeSpaceOffset)`, then the
first `numberOfSlots` entries of the slot directory at the tail. -/
def Page.serialize (p : Page) : PageBuffer :=
  { hdr := p.header,
    recBytes := p.data.take p.header.freeSpaceOffset.toNat,
    slots := p.slotDirectory.take p.header.numberOfSlots.toNat }

/-- `Page::deserialize`, called on the page `p` (the C++ `this`): reads the
header, overwrites the first `freeSpaceOffset` data bytes, resizes the slot
directory to `numberOfSlots` and overwrites it from the buffer tail.  Data
bytes beyond `freeSpaceOffset` keep whatever `p` held. -/
def Page.deserialize (p : Page) (b : PageBuffer) : Page :=
  let cnt := b.hdr.freeSpaceOffset.toNat
  { header := b.hdr,
    data := padTruncBytes b.recBytes cnt ++ p.data.drop cnt,
    slotDirectory := padTruncSlots b.slots b.hdr.numberOfSlots.toNat }

/-- Page states reachable by a sequence of `insertRecord` / `deleteRecord`
calls from the empty page: insertions obey the documented precondition
`length > 0` and are small enough that `length + sizeof(Slot)` fits in
`int`.  (For larger lengths the wrapped `requiredSpace` flips the guard —
see the C2 counterexample — and the very next statement is a `memcpy` of
more than `2^31 - 12` bytes into the 4072-byte data area, undefined
behaviour, so no defined execution reaches a state through such a call.) -/
inductive Reachable : Page → Prop where
  | empty : Reachable Page.empty
  | ins : ∀ (p : Page) (record : List Int) (len : Int),
      Reachable p → 0 < len → len + sizeofSlot ≤ 2 ^ 31 - 1 →
      Reachable (p.insertRecord record len).1
  | del : ∀ (p : Page) (slotId : Int),
      Reachable p → Reachable (p.deleteRecord slotId).1

/-! ### BufferPool (`bufferpool.h` / `bufferpool.cpp`)

`std::chrono` timestamps are modelled as `Int` (a monotone clock supplies the
`now` argument of each operation); the `std::unordered_map<int,int>` page
table is an association list with unique keys; the `DiskManager` behind
`readPage` is abstracted as an oracle `read : Int → Page → Option Page`
giving, for a page id and the previous content of the frame's `Page` object,
the frame's `Page` after a successful `readPage` (or `none` when the read
fails, in which case `readPage` leaves the `Page` object untouched).  The
dirty write-back inside `fixPage` only mutates the disk, never the pool
state, so it does not appear in the pool-state model. -/

/-- A buffer pool frame (`BufferPool::Frame` plus the LRU timestamp used by
`bufferpool.cpp`). -/
structure Frame where
  page : Page
  pinCount : Int
  isDirty : Bool
  lastAccessTime : Int
deriving DecidableEq, Repr

/-- `pageTable_.find`. -/
def ptFind : List (Int × Int) → Int → Option Int
  | [], _ => none
  | (k, v) :: rest, key => if k = key then some v else ptFind rest key

/-- `pageTable_[key] = value` (insert-or-assign). -/
def ptInsert : List (Int × Int) → Int → Int → List (Int × Int)
  | [], key, value => [(key, value)]
  | (k, v) :: rest, key, value =>
    if k = key then (key, value) :: rest else (k, v) :: ptInsert rest key value

/-- `pageTable_.erase(key)`. -/
def ptErase : List (Int × Int) → Int → List (Int × Int)
  | [], _ => []
  | (k, v) :: rest, key =>
    if k = key then ptErase rest key else (k, v) :: ptErase rest key

/-- The buffer pool state: the frame array and the page table. -/
structure BufferPool where
  frames : List Frame
  pageTable : List (Int × Int)
deriving DecidableEq, Repr

/-- The comparator passed to `std::min_element` in `BufferPool::findVictim`:
unpinned frames compare below pinned ones, otherwise by `lastAccessTime`. -/
def frameLess (a b : Frame) : Bool :=
  if a.pinCount = 0 ∧ ¬b.pinCount = 0 then true
  else if ¬a.pinCount = 0 ∧ b.pinCount = 0 then false
  else decide (a.lastAccessTime < b.lastAccessTime)

/-- The scan performed by `std::min_element`: keep the current best
`(index, frame)`, replacing it exactly when a later frame compares strictly
less.  `i` is the index of the head of the remaining list. -/
def minElemAux : List Frame → Nat × Frame → Nat → Nat × Frame
  | [], best, _ => best
  | g :: rest, best, i =>
    if frameLess g best.2 then minElemAux rest (i, g) (i + 1)
    else minElemAux rest best (i + 1)

/-- `BufferPool::findVictim`: index of the LRU unpinned frame, or `-1` when
the minimal frame is still pinned (i.e. every frame is pinned) or the pool is
empty. -/
def findVictim (frames : List Frame) : Int :=
  match frames with
  | [] => -1
  | f :: rest =>
    let r := minElemAux rest (0, f) 1
    if r.2.pinCount = 0 then (r.1 : Int) else -1

/-- The `std::find_if` scan for an empty frame in `fixPage`: first index with
`pinCount == 0 && page.getPageId() == -1`. -/
def findEmpty : List Frame → Option Nat
  | [] => none
  | f :: rest =>
    if f.pinCount = 0 ∧ f.page.getPageId = -1 then some 0
    else (findEmpty rest).map (· + 1)

/-- `BufferPool::fixPage`.  Returns the new pool state and `some frameIndex`
standing for the returned `Page*` (or `none` for `nullptr`). -/
def BufferPool.fixPage (read : Int → Page → Option Page) (now : Int)
    (pool : BufferPool) (pageId : Int) (isWrite : Bool) :
    BufferPool × Option Nat :=
  match ptFind pool.pageTable pageId with
  | some index =>
    match pool.frames.get? index.toNat with
    | none => (pool, none)
    | some f =>
      let f' := { f with
        pinCount := f.pinCount + 1,
        lastAccessTime := now,
        isDirty := if isWrite then true else f.isDirty }
      ({ pool with frames := pool.frames.set index.toNat f' }, some index.toNat)
  | none =>
    match findEmpty pool.frames with
    | some index =>
      match pool.frames.get? index with
      | none => (pool, none)
      | some f =>
        match read pageId f.page with
        | none => (pool, none)
        | some pg =>
          let f' : Frame :=
            { page := pg.setPageId pageId, pinCount := 1,
              isDirty := isWrite, lastAccessTime := now }
          ({ frames := pool.frames.set index f',
             pageTable := ptInsert pool.pageTable pageId (index : Int) },
           some index)
    | none =>
      let v := findVictim pool.frames
      if v = -1 then (pool, none)
      else
        match pool.frames.get? v.toNat with
        | none => (pool, none)
        | some f =>
          let table1 := ptErase pool.pageTable f.page.getPageId
          match read pageId f.page with
          | none => ({ pool with pageTable := table1 }, none)
          | some pg =>
            let f' : Frame :=
              { page := pg.setPageId pageId, pinCount := 1,
                isDirty := isWrite, lastAccessTime := now }
            ({ frames := pool.frames.set v.toNat f',
               pageTable := ptInsert table1 pageId v },
             some v.toNat)

/-- `BufferPool::unfixPage`.  The handle argument is represented by the page
id it reports (`page->getPageId()`). -/
def BufferPool.unfixPage (pool : BufferPool) (now : Int)
    (handleId : Int) (isDirty : Bool) : BufferPool :=
  match ptFind pool.pageTable handleId with
  | none => pool
  | some index =>
    match pool.frames.get? index.toNat with
    | none => pool
    | some f =>
      let f1 := if 0 < f.pinCount then { f with pinCount := f.pinCount - 1 } else f
      let f2 := if isDirty then { f1 with isDirty := true } else f1
      let f3 := { f2 with lastAccessTime := now }
      { pool with frames := pool.frames.set index.toNat f3 }

/-! ### DiskManager (`diskmanager.h` / `diskmanager.cpp`)

The backing file is a map from page id to the serialized page stored there;
seek/write success of one I/O call is abstracted as a boolean `io` argument.
On an I/O failure the model leaves the file unchanged (a short write may in
reality leave partial bytes; no claim concerns those bytes). -/

/-- The offset computation `int offset = pageId * PAGE_SIZE;` performed by
`DiskManager::readPage` (and likewise by `writePage`): a 32-bit `int`
product. -/
def readPageOffset (pageId : Int) : Int := toInt32 (pageId * PAGE_SIZE)

/-- The unused helper `DiskManager::getOffset`: `static_cast<long>(pageId) *
PAGE_SIZE`, a 64-bit product. -/
def getOffset (pageId : Int) : Int := toInt64 (pageId * PAGE_SIZE)

/-- DiskManager state: the page count it tracks and the backing file. -/
structure DiskManager where
  numPages : Int
  file : Int → Option PageBuffer

/-- `DiskManager::writePage`.  `io` abstracts success of the seek and write
calls; the flush result is ignored by the code. -/
def DiskManager.writePage (dm : DiskManager) (pageId : Int) (page : Page)
    (io : Bool) : DiskManager × Bool :=
  if pageId = dm.numPages ∨ pageId < dm.numPages then
    if io then
      ({ numPages := if pageId = dm.numPages then dm.numPages + 1 else dm.numPages,
         file := fun k => if k = pageId then some page.serialize else dm.file k },
       true)
    else (dm, false)
  else (dm, false)

/-- `DiskManager::allocateNewPage`. -/
def DiskManager.allocateNewPage (dm : DiskManager) (io : Bool) :
    DiskManager × Int :=
  let newPage := Page.setPageId Page.empty dm.numPages
  let r := dm.writePage dm.numPages newPage io
  if r.2 then (r.1, r.1.numPages - 1) else (r.1, -1)

/-- `DiskManager::getNumberOfPages`. -/
def DiskManager.getNumberOfPages (dm : DiskManager) : Int := dm.numPages

/-- A sequence of `k` `allocateNewPage` calls whose I/O all succeeds,
returning the final state and the list of returned page ids. -/
def allocSeq : Nat → DiskManager → DiskManager × List Int
  | 0, dm => (dm, [])
  | k + 1, dm =>
    let r := dm.allocateNewPage true
    let rest := allocSeq k r.1
    (rest.1, r.2 :: rest.2)

/-! ### The slotted-page invariant -/

/-- `ContigFrom a l e`: the slots `l` tile the byte range `[a, e)` of the
data area exactly, in order, each valid and of positive length. -/
def ContigFrom : Int → List Slot → Int → Prop
  | a, [], e => a = e
  | a, s :: l, e =>
    s.offset = a ∧ 0 < s.length ∧ s.isValid = true ∧ ContigFrom (a + s.length) l e

@[simp] theorem contigFrom_nil {a e : Int} : ContigFrom a [] e ↔ a = e := Iff.rfl

@[simp] theorem contigFrom_cons {a e : Int} {s : Slot} {l : List Slot} :
    ContigFrom a (s :: l) e ↔
      s.offset = a ∧ 0 < s.length ∧ s.isValid = true ∧
        ContigFrom (a + s.length) l e := Iff.rfl

theorem ContigFrom.le : ∀ {l : List Slot} {a e : Int}, ContigFrom a l e → a ≤ e := by
  intro l
  induction l with
  | nil => intro a e h; simp only [contigFrom_nil] at h; omega
  | cons s l ih =>
    intro a e h
    simp only [contigFrom_cons] at h
    have := ih h.2.2.2
    omega

theorem ContigFrom.mem : ∀ {l : List Slot} {a e : Int}, ContigFrom a l e →
    ∀ {s : Slot}, s ∈ l →
      a ≤ s.offset ∧ s.offset + s.length ≤ e ∧ 0 < s.length ∧ s.isValid = true := by
  intro l
  induction l with
  | nil => intro a e _ s hs; cases hs
  | cons t l ih =>
    intro a e h s hs
    simp only [contigFrom_cons] at h
    obtain ⟨hoff, hlen, hval, hrest⟩ := h
    rcases List.mem_cons.mp hs with rfl | hs
    · have := hrest.le
      exact ⟨le_of_eq hoff.symm, by omega, hlen, hval⟩
    · obtain ⟨h1, h2, h3, h4⟩ := ih hrest hs
      exact ⟨by omega, h2, h3, h4⟩

theorem ContigFrom.append_iff {l₁ l₂ : List Slot} : ∀ {a e : Int},
    ContigFrom a (l₁ ++ l₂) e ↔ ∃ m, ContigFrom a l₁ m ∧ ContigFrom m l₂ e := by
  induction l₁ with
  | nil =>
    intro a e
    constructor
    · intro h; exact ⟨a, rfl, h⟩
    · rintro ⟨m, rfl, h⟩; exact h
  | cons s l ih =>
    intro a e
    simp only [List.cons_append, contigFrom_cons, ih]
    constructor
    · rintro ⟨h1, h2, h3, m, h4, h5⟩; exact ⟨m, ⟨h1, h2, h3, h4⟩, h5⟩
    · rintro ⟨m, ⟨h1, h2, h3, h4⟩, h5⟩; exact ⟨h1, h2, h3, m, h4, h5⟩

theorem ContigFrom.snoc {l : List Slot} {a e len : Int}
    (h : ContigFrom a l e) (hlen : 0 < len) :
    ContigFrom a (l ++ [{ offset := e, length := len, isValid := true }]) (e + len) :=
  ContigFrom.append_iff.mpr ⟨e, h, ⟨rfl, hlen, rfl, rfl⟩⟩

theorem ContigFrom.shift (c : Int) : ∀ {l : List Slot} {a e : Int},
    ContigFrom a l e →
      ContigFrom (a - c) (l.map fun t => { t with offset := t.offset - c }) (e - c) := by
  intro l
  induction l with
  | nil => intro a e h; simp only [List.map_nil, contigFrom_nil] at h ⊢; omega
  | cons s l ih =>
    intro a e h
    simp only [contigFrom_cons] at h
    obtain ⟨hoff, hlen, hval, hrest⟩ := h
    refine ⟨by simp [hoff], hlen, hval, ?_⟩
    have := ih hrest
    simpa [hoff, add_sub_right_comm] using this

theorem ContigFrom.adj : ∀ {l : List Slot} {a e : Int}, ContigFrom a l e →
    ∀ (i : Nat) (h : i + 1 < l.length),
      (l.get ⟨i, by omega⟩).offset + (l.get ⟨i, by omega⟩).length
        = (l.get ⟨i + 1, h⟩).offset := by
  intro l
  induction l with
  | nil => intro a e _ i h; simp at h
  | cons s l ih =>
    intro a e hc i h
    simp only [contigFrom_cons] at hc
    obtain ⟨hoff, hlen, hval, hrest⟩ := hc
    cases i with
    | zero =>
      cases l with
      | nil => simp at h
      | cons t l' =>
        simp only [contigFrom_cons] at hrest
        show s.offset + s.length = t.offset
        omega
    | succ i' =>
      have h' : i' + 1 < l.length := by simpa using h
      exact ih hrest i' h'

theorem ContigFrom.sep : ∀ {l : List Slot} {a e : Int}, ContigFrom a l e →
    ∀ (i j : Nat) (hi : i < l.length) (hj : j < l.length), i < j →
      (l.get ⟨i, hi⟩).offset + (l.get ⟨i, hi⟩).length ≤ (l.get ⟨j, hj⟩).offset := by
  intro l
  induction l with
  | nil => intro a e _ i j hi; simp at hi
  | cons s l ih =>
    intro a e hc i j hi hj hij
    simp only [contigFrom_cons] at hc
    obtain ⟨hoff, hlen, hval, hrest⟩ := hc
    cases i with
    | zero =>
      cases j with
      | zero => omega
      | succ j' =>
        have hj' : j' < l.length := by simpa using hj
        have hmem := hrest.mem (List.get_mem l j' hj')
        show s.offset + s.length ≤ (l.get ⟨j', hj'⟩).offset
        omega
    | succ i' =>
      cases j with
      | zero => omega
      | succ j' =>
        exact ih hrest i' j' (by simpa using hi) (by simpa using hj) (by omega)

theorem ContigFrom.cover : ∀ {l : List Slot} {a e : Int}, ContigFrom a l e →
    ∀ k : Int, a ≤ k → k < e →
      ∃ s ∈ l, s.offset ≤ k ∧ k < s.offset + s.length := by
  intro l
  induction l with
  | nil =>
    intro a e h k h1 h2
    simp only [contigFrom_nil] at h
    exact absurd h2 (by omega)
  | cons s l ih =>
    intro a e hc k h1 h2
    simp only [contigFrom_cons] at hc
    obtain ⟨hoff, hlen, hval, hrest⟩ := hc
    by_cases hk : k < a + s.length
    · exact ⟨s, List.mem_cons_self s l, by omega, by omega⟩
    · obtain ⟨t, ht, h3, h4⟩ := ih hrest k (by omega) h2
      exact ⟨t, List.mem_cons_of_mem s ht, h3, h4⟩

/-- The slotted-page representation invariant (spec §3), maintained by every
state reachable through `insertRecord` / `deleteRecord`. -/
structure PageInv (p : Page) : Prop where
  dataLen : p.data.length = DsizeNat
  slotsLen : (p.slotDirectory.length : Int) = p.header.numberOfSlots
  contig : ContigFrom 0 p.slotDirectory p.header.freeSpaceOffset
  fit : p.header.freeSpaceOffset + sizeofSlot * p.header.numberOfSlots ≤ Dsize

theorem PageInv.fso_nonneg {p : Page} (h : PageInv p) :
    0 ≤ p.header.freeSpaceOffset := h.contig.le

theorem PageInv.slots_nonneg {p : Page} (h : PageInv p) :
    0 ≤ p.header.numberOfSlots := by
  rw [← h.slotsLen]; exact Int.natCast_nonneg _

theorem PageInv.fso_le {p : Page} (h : PageInv p) :
    p.header.freeSpaceOffset ≤ Dsize := by
  have h1 := h.fit
  have h2 := h.slots_nonneg
  simp only [sizeofSlot, Dsize, PAGE_SIZE, sizeofPageHeader] at h1 ⊢
  omega

theorem toInt32_eq_self {x : Int} (h1 : -(2 ^ 31) ≤ x) (h2 : x < 2 ^ 31) :
    toInt32 x = x := by
  simp only [toInt32]
  omega

/-- On lengths where `length + sizeof(Slot)` fits in `int`, the machine
computation of `requiredSpace` agrees with the exact sum. -/
theorem requiredSpace_exact {len : Int} (h1 : 0 < len)
    (h2 : len + sizeofSlot ≤ 2 ^ 31 - 1) :
    toInt32 (toUInt64 (toUInt64 len + sizeofSlot)) = len + sizeofSlot := by
  simp only [toInt32, toUInt64, sizeofSlot] at *
  omega

/-- On page states whose header describes a directory and record area that
fit in the page, the machine computation of `getFreeSpace` agrees with the
exact formula `D - numberOfSlots*S - freeSpaceOffset`. -/
theorem getFreeSpace_exact (p : Page)
    (hfso : 0 ≤ p.header.freeSpaceOffset)
    (hfso2 : p.header.freeSpaceOffset ≤ Dsize)
    (hn : 0 ≤ p.header.numberOfSlots)
    (hn2 : sizeofSlot * p.header.numberOfSlots ≤ Dsize) :
    p.getFreeSpace
      = Dsize - p.header.numberOfSlots * sizeofSlot
        - p.header.freeSpaceOffset := by
  simp only [Page.getFreeSpace, toInt32, toUInt64, Dsize, PAGE_SIZE,
    sizeofPageHeader, sizeofSlot] at *
  omega

@[simp] theorem bytesExact_length (record : List Int) (n : Nat) :
    (bytesExact record n).length = n := by
  simp only [bytesExact, List.length_append, List.length_take, List.length_replicate]
  omega

theorem pageInv_empty : PageInv Page.empty := by
  refine ⟨?_, ?_, ?_, ?_⟩
  · simp [Page.empty]
  · simp [Page.empty]
  · exact rfl
  · norm_num [Page.empty, Dsize, PAGE_SIZE, sizeofPageHeader, sizeofSlot]

theorem insert_preserves_inv {p : Page} {record : List Int} {len : Int}
    (IH : PageInv p) (hlen : 0 < len)
    (hlen2 : len + sizeofSlot ≤ 2 ^ 31 - 1) :
    PageInv (p.insertRecord record len).1 := by
  have hn0 := IH.slots_nonneg
  have hfso0 := IH.fso_nonneg
  have hn2 : sizeofSlot * p.header.numberOfSlots ≤ Dsize := by
    have hfit := IH.fit
    simp only [sizeofSlot, Dsize, PAGE_SIZE, sizeofPageHeader] at hfit ⊢
    omega
  have hgf := getFreeSpace_exact p hfso0 IH.fso_le hn0 hn2
  have hreq := requiredSpace_exact hlen hlen2
  by_cases hfree : p.getFreeSpace
      < toInt32 (toUInt64 (toUInt64 len + sizeofSlot))
  · simpa [Page.insertRecord, hfree] using IH
  · have hroom : p.header.freeSpaceOffset + len
        + sizeofSlot * (p.header.numberOfSlots + 1) ≤ Dsize := by
      rw [hreq, hgf] at hfree
      simp only [sizeofSlot, Dsize, PAGE_SIZE, sizeofPageHeader] at hfree ⊢
      omega
    simp only [Page.insertRecord, if_neg hfree]
    refine ⟨?_, ?_, ?_, ?_⟩
    · have hdl := IH.dataLen
      have hfl : p.header.freeSpaceOffset + len ≤ Dsize := by
        simp only [sizeofSlot, Dsize, PAGE_SIZE, sizeofPageHeader] at hroom ⊢
        omega
      simp only [List.length_append, List.length_take, List.length_drop,
        bytesExact_length, hdl, DsizeNat] at *
      simp only [Dsize, PAGE_SIZE, sizeofPageHeader] at hfl
      omega
    · simp only [List.length_append, List.length_cons, List.length_nil]
      push_cast
      rw [IH.slotsLen]
    · exact IH.contig.snoc hlen
    · exact hroom

theorem mapFrom_length (f : Nat → Slot → Slot) :
    ∀ (l : List Slot) (i : Nat), (mapFrom f i l).length = l.length := by
  intro l
  induction l with
  | nil => intro i; rfl
  | cons t l ih => intro i; simp [mapFrom, ih]

theorem mapFrom_append (f : Nat → Slot → Slot) :
    ∀ (l₁ l₂ : List Slot) (i : Nat),
      mapFrom f i (l₁ ++ l₂) = mapFrom f i l₁ ++ mapFrom f (i + l₁.length) l₂ := by
  intro l₁
  induction l₁ with
  | nil => intro l₂ i; simp [mapFrom]
  | cons t l ih =>
    intro l₂ i
    show f i t :: mapFrom f (i + 1) (l ++ l₂)
        = (f i t :: mapFrom f (i + 1) l) ++ mapFrom f (i + (l.length + 1)) l₂
    rw [ih]
    simp only [List.cons_append]
    rw [show i + (l.length + 1) = i + 1 + l.length from by omega]

theorem mapFrom_eq_map {f : Nat → Slot → Slot} {g : Slot → Slot} :
    ∀ (l : List Slot) (i : Nat),
      (∀ j t, i ≤ j → j < i + l.length → f j t = g t) →
      mapFrom f i l = l.map g := by
  intro l
  induction l with
  | nil => intro i _; simp [mapFrom]
  | cons t l ih =>
    intro i h
    have h1 : f i t = g t := h i t le_rfl (by simp)
    have h2 : mapFrom f (i + 1) l = l.map g := by
      refine ih (i + 1) ?_
      intro j u hj hj2
      exact h j u (by omega) (by simp only [List.length_cons]; omega)
    simp only [mapFrom, List.map_cons, h1, h2]

theorem mapFrom_eq_self {f : Nat → Slot → Slot} (l : List Slot) (i : Nat)
    (h : ∀ j t, i ≤ j → j < i + l.length → f j t = t) : mapFrom f i l = l := by
  rw [mapFrom_eq_map (g := id) l i (fun j t h1 h2 => h j t h1 h2)]
  exact List.map_id l

theorem list_decomp {α : Type} {l : List α} {k : Nat} (hk : k < l.length) :
    l = l.take k ++ l.get ⟨k, hk⟩ :: l.drop (k + 1) := by
  conv_lhs => rw [← List.take_append_drop k l, List.drop_eq_getElem_cons hk]
  rfl

theorem delete_preserves_inv {p : Page} {slotId : Int}
    (IH : PageInv p) : PageInv (p.deleteRecord slotId).1 := by
  by_cases hor : slotId < 0 ∨ p.header.numberOfSlots ≤ slotId
  · simpa [Page.deleteRecord, hor] using IH
  · push_neg at hor
    obtain ⟨h0, h1⟩ := hor
    have hor' : ¬(slotId < 0 ∨ p.header.numberOfSlots ≤ slotId) := by omega
    have hklen : slotId.toNat < p.slotDirectory.length := by
      have := IH.slotsLen; omega
    have hget : p.slotDirectory.get? slotId.toNat
        = some (p.slotDirectory.get ⟨slotId.toNat, hklen⟩) := by
      rw [List.get?_eq_getElem?, List.getElem?_eq_getElem hklen]
      rfl
    obtain ⟨hs0, hsend, hslen, hsval⟩ :=
      IH.contig.mem (List.get_mem p.slotDirectory slotId.toNat hklen)
    simp only [Page.deleteRecord, if_neg hor', hget, hsval, Bool.true_eq_false,
      if_false]
    have hdecomp := list_decomp hklen
    have herase : p.slotDirectory.eraseIdx slotId.toNat
        = p.slotDirectory.take slotId.toNat ++ p.slotDirectory.drop (slotId.toNat + 1) :=
      List.eraseIdx_eq_take_drop_succ p.slotDirectory slotId.toNat
    have hl1len : (p.slotDirectory.take slotId.toNat).length = slotId.toNat := by
      simp [List.length_take]; omega
    have hl2len : (p.slotDirectory.drop (slotId.toNat + 1)).length
        = p.slotDirectory.length - slotId.toNat - 1 := by
      simp only [List.length_drop]
      omega
    obtain ⟨m, hcl1, hcons⟩ := ContigFrom.append_iff.mp (hdecomp ▸ IH.contig)
    obtain ⟨hoffm, hlenpos, hvalm, hrest⟩ := contigFrom_cons.mp hcons
    have hmaps : mapFrom (fun i t =>
        if slotId.toNat ≤ i ∧ (i : Int) < p.header.numberOfSlots - 1 then
          { t with offset := t.offset
              - (p.slotDirectory.get ⟨slotId.toNat, hklen⟩).length }
        else t) 0 (p.slotDirectory.eraseIdx slotId.toNat)
        = p.slotDirectory.take slotId.toNat
          ++ (p.slotDirectory.drop (slotId.toNat + 1)).map (fun t =>
            { t with offset := t.offset
                - (p.slotDirectory.get ⟨slotId.toNat, hklen⟩).length }) := by
      rw [herase, mapFrom_append]
      congr 1
      · refine mapFrom_eq_self _ 0 ?_
        intro j t hj hj2
        rw [if_neg]
        rw [hl1len] at hj2
        omega
      · rw [Nat.zero_add, hl1len]
        refine mapFrom_eq_map _ slotId.toNat ?_
        intro j t hj hj2
        rw [if_pos]
        refine ⟨hj, ?_⟩
        rw [hl2len] at hj2
        have := IH.slotsLen
        omega
    refine ⟨?_, ?_, ?_, ?_⟩
    · have hdl := IH.dataLen
      have hfle := IH.fso_le
      simp only [Dsize, PAGE_SIZE, sizeofPageHeader] at hfle
      by_cases hba : 0 < p.header.freeSpaceOffset
          - ((p.slotDirectory.get ⟨slotId.toNat, hklen⟩).offset
             + (p.slotDirectory.get ⟨slotId.toNat, hklen⟩).length)
      · simp only [if_pos hba, List.length_append, List.length_take,
          List.length_drop, hdl, DsizeNat] at *
        omega
      · simp only [if_neg hba]
        exact hdl
    · rw [hmaps]
      simp only [List.length_append, List.length_map, hl1len, hl2len]
      have := IH.slotsLen
      omega
    · rw [hmaps]
      refine ContigFrom.append_iff.mpr ⟨m, hcl1, ?_⟩
      have := hrest.shift (p.slotDirectory.get ⟨slotId.toNat, hklen⟩).length
      simpa using this
    · have hfit := IH.fit
      simp only [Dsize, PAGE_SIZE, sizeofPageHeader, sizeofSlot] at hfit ⊢
      omega

/-- Every reachable page state satisfies the page invariant. -/
theorem reachable_pageInv : ∀ {p : Page}, Reachable p → PageInv p := by
  intro p h
  induction h with
  | empty => exact pageInv_empty
  | ins p record len hr hlen hlen2 IH => exact insert_preserves_inv IH hlen hlen2
  | del p slotId hr IH => exact delete_preserves_inv IH

theorem page_empty_data_length : Page.empty.data.length = DsizeNat :=
  List.length_replicate DsizeNat 0

theorem padTruncBytes_of_length {l : List Int} {n : Nat} (h : l.length = n) :
    padTruncBytes l n = l := by
  subst h
  simp [padTruncBytes]

theorem padTruncSlots_of_length {l : List Slot} {n : Nat} (h : l.length = n) :
    padTruncSlots l n = l := by
  subst h
  simp [padTruncSlots]

/-- C1: for every Page reachable by a sequence of `insertRecord` and
`deleteRecord` operations from the empty page, `deserialize(serialize(p))`
(performed into any page object `q0`) agrees with `p` on the header fields,
on the bytes `data[0..freeSpaceOffset)`, and on the slot directory. -/
theorem page_roundtrip {p : Page} (h : Reachable p) (q0 : Page) :
    (q0.deserialize p.serialize).header = p.header
    ∧ (q0.deserialize p.serialize).data.take p.header.freeSpaceOffset.toNat
        = p.data.take p.header.freeSpaceOffset.toNat
    ∧ (q0.deserialize p.serialize).slotDirectory = p.slotDirectory := by
  have inv := reachable_pageInv h
  have hfso0 := inv.fso_nonneg
  have hfle := inv.fso_le
  simp only [Dsize, PAGE_SIZE, sizeofPageHeader] at hfle
  have hrb : (p.data.take p.header.freeSpaceOffset.toNat).length
      = p.header.freeSpaceOffset.toNat := by
    simp only [List.length_take, inv.dataLen, DsizeNat]
    omega
  have hsl : (p.slotDirectory.take p.header.numberOfSlots.toNat)
      = p.slotDirectory := by
    refine List.take_of_length_le ?_
    have := inv.slotsLen
    omega
  refine ⟨rfl, ?_, ?_⟩
  · show (padTruncBytes (p.data.take p.header.freeSpaceOffset.toNat)
        p.header.freeSpaceOffset.toNat
        ++ q0.data.drop p.header.freeSpaceOffset.toNat).take
          p.header.freeSpaceOffset.toNat
      = p.data.take p.header.freeSpaceOffset.toNat
    rw [padTruncBytes_of_length hrb, List.take_left' hrb]
  · show padTruncSlots (p.slotDirectory.take p.header.numberOfSlots.toNat)
        p.header.numberOfSlots.toNat = p.slotDirectory
    rw [hsl]
    refine padTruncSlots_of_length ?_
    have := inv.slotsLen
    omega

/-- C1 witness: a concrete reachable page (one insertion into the empty page)
roundtrips through serialize/deserialize. -/
theorem page_roundtrip_witness :
    Reachable (Page.empty.insertRecord [3, 4] 2).1
    ∧ (Page.empty.deserialize (Page.empty.insertRecord [3, 4] 2).1.serialize).header
        = (Page.empty.insertRecord [3, 4] 2).1.header :=
  have hr : Reachable (Page.empty.insertRecord [3, 4] 2).1 :=
    Reachable.ins Page.empty [3, 4] 2 Reachable.empty (by decide) (by decide)
  ⟨hr, (page_roundtrip hr Page.empty).1⟩

/-- A record length in `[2^31 - 12, 2^31 - 1]`: `length + sizeof(Slot)`
equals `2^31` and the `int` conversion wraps it to `-2^31`. -/
def c2len : Int := 2147483636

/-- C2 counterexample: on the empty page, a record of length `2^31 - 12`
has `freeSpace() = 4072 < length + S`, so the claim demands a `-1` return;
but the code's `int requiredSpace = length + sizeof(Slot)` wraps to
`-2^31`, the guard `getFreeSpace() < requiredSpace` is false, and
`insertRecord` does not return `-1` — it returns slot id 0 and proceeds
into a `memcpy` of `2^31 - 12` bytes into the 4072-byte data area
(undefined behaviour). -/
theorem insertRecord_wrap_claim_false :
    (0 : Int) < c2len
    ∧ Page.empty.getFreeSpace < c2len + sizeofSlot
    ∧ (Page.empty.insertRecord [] c2len).2 = 0
    ∧ (Page.empty.insertRecord [] c2len).2 ≠ -1 :=
  ⟨by decide, by decide, by decide, by decide⟩

/-- C2 (amended): for every well-formed page state (a `D`-byte data area,
`0 ≤ freeSpaceOffset ≤ D`, `0 ≤ numberOfSlots` with `numberOfSlots·S ≤ D`)
and every record of length `> 0` with `length + S ≤ 2^31 - 1` — so that the
`int` computation of `requiredSpace` does not overflow — `insertRecord`
returns `-1` iff `freeSpace() < length + S`, with
`freeSpace() = D - numberOfSlots*S - freeSpaceOffset`; on failure the page
is unchanged; on success it appends the record bytes at
`data[freeSpaceOffset..]`, appends the slot
`{offset := old freeSpaceOffset, length, isValid := true}`, advances
`freeSpaceOffset` by `length`, increments `numberOfSlots`, sets the dirty
flag, and returns the new slot index (the old `numberOfSlots`). -/
theorem insertRecord_spec (p : Page) (record : List Int) (len : Int)
    (hlen : 0 < len) (hlen2 : len + sizeofSlot ≤ 2 ^ 31 - 1)
    (hrec : len ≤ (record.length : Int))
    (hdata : p.data.length = DsizeNat)
    (hfso : 0 ≤ p.header.freeSpaceOffset)
    (hfso2 : p.header.freeSpaceOffset ≤ Dsize)
    (hn : 0 ≤ p.header.numberOfSlots)
    (hn2 : sizeofSlot * p.header.numberOfSlots ≤ Dsize) :
    ((p.insertRecord record len).2 = -1 ↔ p.getFreeSpace < len + sizeofSlot)
    ∧ p.getFreeSpace = Dsize - p.header.numberOfSlots * sizeofSlot
        - p.header.freeSpaceOffset
    ∧ (p.getFreeSpace < len + sizeofSlot → (p.insertRecord record len).1 = p)
    ∧ (¬p.getFreeSpace < len + sizeofSlot →
        (p.insertRecord record len).2 = p.header.numberOfSlots
        ∧ (p.insertRecord record len).1.slotDirectory
            = p.slotDirectory ++ [(⟨p.header.freeSpaceOffset, len, true⟩ : Slot)]
        ∧ (p.insertRecord record len).1.header.freeSpaceOffset
            = p.header.freeSpaceOffset + len
        ∧ (p.insertRecord record len).1.header.numberOfSlots
            = p.header.numberOfSlots + 1
        ∧ (p.insertRecord record len).1.header.dirty = true
        ∧ (p.insertRecord record len).1.data.take p.header.freeSpaceOffset.toNat
            = p.data.take p.header.freeSpaceOffset.toNat
        ∧ ((p.insertRecord record len).1.data.drop
              p.header.freeSpaceOffset.toNat).take len.toNat
            = record.take len.toNat
        ∧ (p.insertRecord record len).1.data.drop
              (p.header.freeSpaceOffset.toNat + len.toNat)
            = p.data.drop (p.header.freeSpaceOffset.toNat + len.toNat)) := by
  have hgf := getFreeSpace_exact p hfso hfso2 hn hn2
  have hreq := requiredSpace_exact hlen hlen2
  by_cases hfree : p.getFreeSpace
      < toInt32 (toUInt64 (toUInt64 len + sizeofSlot))
  · have hfree2 : p.getFreeSpace < len + sizeofSlot := hreq ▸ hfree
    have heq : p.insertRecord record len = (p, -1) := by
      simp only [Page.insertRecord, if_pos hfree]
    rw [heq]
    exact ⟨iff_of_true rfl hfree2, hgf, fun _ => rfl,
      fun hc => absurd hfree2 hc⟩
  · have hfree2 : ¬p.getFreeSpace < len + sizeofSlot := hreq ▸ hfree
    have hroom : p.header.freeSpaceOffset + len ≤ Dsize := by
      have hfree3 := hfree2
      rw [hgf] at hfree3
      simp only [sizeofSlot, Dsize, PAGE_SIZE, sizeofPageHeader] at hfree3 ⊢
      omega
    have hfle : p.header.freeSpaceOffset.toNat + len.toNat ≤ p.data.length := by
      simp only [hdata, DsizeNat]
      simp only [Dsize, PAGE_SIZE, sizeofPageHeader] at hroom
      omega
    have htl : (p.data.take p.header.freeSpaceOffset.toNat).length
        = p.header.freeSpaceOffset.toNat := by
      simp only [List.length_take]
      omega
    have hbl : (bytesExact record len.toNat).length = len.toNat :=
      bytesExact_length record len.toNat
    have heq : p.insertRecord record len
        = (⟨⟨p.header.pageId, true, p.header.lsn,
              p.header.freeSpaceOffset + len, p.header.numberOfSlots + 1⟩,
            p.data.take p.header.freeSpaceOffset.toNat
              ++ bytesExact record len.toNat
              ++ p.data.drop (p.header.freeSpaceOffset.toNat + len.toNat),
            p.slotDirectory ++ [⟨p.header.freeSpaceOffset, len, true⟩]⟩,
           p.header.numberOfSlots + 1 - 1) := by
      simp only [Page.insertRecord, if_neg hfree]
    rw [heq]
    refine ⟨iff_of_false (by omega) hfree2, hgf, fun hc => absurd hc hfree2,
      fun _ => ⟨by omega, rfl, rfl, rfl, rfl, ?_, ?_, ?_⟩⟩
    · show ((p.data.take p.header.freeSpaceOffset.toNat
          ++ bytesExact record len.toNat)
          ++ p.data.drop (p.header.freeSpaceOffset.toNat + len.toNat)).take
            p.header.freeSpaceOffset.toNat
        = p.data.take p.header.freeSpaceOffset.toNat
      rw [List.append_assoc, List.take_left' htl]
    · show (((p.data.take p.header.freeSpaceOffset.toNat
          ++ bytesExact record len.toNat)
          ++ p.data.drop (p.header.freeSpaceOffset.toNat + len.toNat)).drop
            p.header.freeSpaceOffset.toNat).take len.toNat
        = record.take len.toNat
      rw [List.append_assoc, List.drop_left' htl, List.take_left' hbl]
      simp only [bytesExact]
      have hz : len.toNat - record.length = 0 := by omega
      simp [hz]
    · show ((p.data.take p.header.freeSpaceOffset.toNat
          ++ bytesExact record len.toNat)
          ++ p.data.drop (p.header.freeSpaceOffset.toNat + len.toNat)).drop
            (p.header.freeSpaceOffset.toNat + len.toNat)
        = p.data.drop (p.header.freeSpaceOffset.toNat + len.toNat)
      refine List.drop_left' ?_
      simp only [List.length_append, htl, hbl]

/-- C2 (amended) witness: inserting a 2-byte record into the empty page. -/
theorem insertRecord_spec_witness :
    (0 : Int) < 2 ∧ (2 : Int) + sizeofSlot ≤ 2 ^ 31 - 1
    ∧ (2 : Int) ≤ (([7, 8] : List Int).length : Int)
    ∧ Page.empty.data.length = DsizeNat
    ∧ (0 : Int) ≤ Page.empty.header.freeSpaceOffset
    ∧ Page.empty.header.freeSpaceOffset ≤ Dsize
    ∧ (0 : Int) ≤ Page.empty.header.numberOfSlots
    ∧ sizeofSlot * Page.empty.header.numberOfSlots ≤ Dsize
    ∧ ((Page.empty.insertRecord [7, 8] 2).2 = -1
        ↔ Page.empty.getFreeSpace < 2 + sizeofSlot) :=
  ⟨by decide, by decide, by decide, page_empty_data_length, by decide,
    by decide, by decide, by decide,
    (insertRecord_spec Page.empty [7, 8] 2 (by decide) (by decide) (by decide)
      page_empty_data_length (by decide) (by decide) (by decide) (by decide)).1⟩

/-- C4: after any sequence of `insertRecord` / `deleteRecord` operations from
the empty page, every slot lies inside `[0, freeSpaceOffset)`, slots do not
overlap (the directory lists them in increasing byte order), and the records
cover `data[0..freeSpaceOffset)` without gaps. -/
theorem compaction_correct {p : Page} (h : Reachable p) :
    (∀ s ∈ p.slotDirectory, s.isValid = true →
      0 ≤ s.offset ∧ s.offset + s.length ≤ p.header.freeSpaceOffset)
    ∧ (∀ (i j : Nat) (hi : i < p.slotDirectory.length)
        (hj : j < p.slotDirectory.length), i < j →
        (p.slotDirectory.get ⟨i, hi⟩).offset + (p.slotDirectory.get ⟨i, hi⟩).length
          ≤ (p.slotDirectory.get ⟨j, hj⟩).offset)
    ∧ (∀ k : Int, 0 ≤ k → k < p.header.freeSpaceOffset →
        ∃ s ∈ p.slotDirectory, s.offset ≤ k ∧ k < s.offset + s.length) := by
  have inv := reachable_pageInv h
  refine ⟨?_, ?_, ?_⟩
  · intro s hs _
    obtain ⟨h1, h2, h3, h4⟩ := inv.contig.mem hs
    exact ⟨h1, h2⟩
  · intro i j hi hj hij
    exact inv.contig.sep i j hi hj hij
  · intro k h1 h2
    exact inv.contig.cover k h1 h2

/-- C4 witness: the conclusion holds for a concrete reachable page. -/
theorem compaction_correct_witness :
    Reachable (Page.empty.insertRecord [5] 1).1
    ∧ (∀ s ∈ (Page.empty.insertRecord [5] 1).1.slotDirectory, s.isValid = true →
        0 ≤ s.offset ∧ s.offset + s.length
          ≤ (Page.empty.insertRecord [5] 1).1.header.freeSpaceOffset) :=
  have hr : Reachable (Page.empty.insertRecord [5] 1).1 :=
    Reachable.ins Page.empty [5] 1 Reachable.empty (by decide) (by decide)
  ⟨hr, (compaction_correct hr).1⟩

/-- C10: in every reachable page state every slot-directory entry is valid
(deletion removes entries outright); consecutive slots are byte-adjacent and
their offsets strictly increase; hence for any in-range slot id neither
`getRecord` nor `deleteRecord` can fail through the invalid-slot branch. -/
theorem slots_valid_adjacent {p : Page} (h : Reachable p) :
    (∀ s ∈ p.slotDirectory, s.isValid = true)
    ∧ (∀ (i : Nat) (hi : i + 1 < p.slotDirectory.length),
        (p.slotDirectory.get ⟨i, by omega⟩).offset
            + (p.slotDirectory.get ⟨i, by omega⟩).length
          = (p.slotDirectory.get ⟨i + 1, hi⟩).offset
        ∧ (p.slotDirectory.get ⟨i, by omega⟩).offset
            < (p.slotDirectory.get ⟨i + 1, hi⟩).offset)
    ∧ (∀ slotId : Int, 0 ≤ slotId → slotId < p.header.numberOfSlots →
        (p.getRecord slotId).2 ≠ -1 ∧ (p.deleteRecord slotId).2 = true) := by
  have inv := reachable_pageInv h
  refine ⟨?_, ?_, ?_⟩
  · intro s hs
    exact (inv.contig.mem hs).2.2.2
  · intro i hi
    have hadj := inv.contig.adj i hi
    have hmem := inv.contig.mem
      (List.get_mem p.slotDirectory i (by omega))
    exact ⟨hadj, by omega⟩
  · intro slotId h0 h1
    have hor' : ¬(slotId < 0 ∨ p.header.numberOfSlots ≤ slotId) := by omega
    have hklen : slotId.toNat < p.slotDirectory.length := by
      have := inv.slotsLen; omega
    have hget : p.slotDirectory.get? slotId.toNat
        = some (p.slotDirectory.get ⟨slotId.toNat, hklen⟩) := by
      rw [List.get?_eq_getElem?, List.getElem?_eq_getElem hklen]
      rfl
    obtain ⟨hs0, hsend, hslen, hsval⟩ :=
      inv.contig.mem (List.get_mem p.slotDirectory slotId.toNat hklen)
    constructor
    · simp only [Page.getRecord, if_neg hor', hget, hsval, Bool.true_eq_false,
        if_false]
      omega
    · simp only [Page.deleteRecord, if_neg hor', hget, hsval, Bool.true_eq_false,
        if_false]

/-- C10 witness: the conclusion holds for a concrete reachable page. -/
theorem slots_valid_adjacent_witness :
    Reachable (Page.empty.insertRecord [9, 9] 2).1
    ∧ (∀ s ∈ (Page.empty.insertRecord [9, 9] 2).1.slotDirectory,
        s.isValid = true) :=
  have hr : Reachable (Page.empty.insertRecord [9, 9] 2).1 :=
    Reachable.ins Page.empty [9, 9] 2 Reachable.empty (by decide) (by decide)
  ⟨hr, (slots_valid_adjacent hr).1⟩

/-- A page state with two valid in-range slots whose offsets are out of
order (it violates the slotted-page invariant, but is a well-typed page
state with a valid in-range slot id to delete). -/
def c3bad : Page :=
  { header := { pageId := 0, dirty := false, lsn := 0,
                freeSpaceOffset := 10, numberOfSlots := 2 },
    data := List.replicate DsizeNat 0,
    slotDirectory := [⟨5, 5, true⟩, ⟨0, 5, true⟩] }

/-- C3 counterexample: deleting slot 1 of `c3bad` (offset 0, length 5)
succeeds, but the surviving slot — whose original offset 5 is greater than
the deleted record's offset 0 — keeps offset 5: the code subtracts the
length only from slots at indices ≥ slotId, not from every slot with a
greater offset as the claim states for arbitrary page states. -/
theorem deleteRecord_offset_rule_false :
    (c3bad.deleteRecord 1).2 = true
    ∧ (c3bad.deleteRecord 1).1.slotDirectory = [⟨5, 5, true⟩]
    ∧ (c3bad.deleteRecord 1).1.slotDirectory
        ≠ (c3bad.slotDirectory.eraseIdx (1 : Int).toNat).map (fun t =>
            if (0 : Int) < t.offset then { t with offset := t.offset - 5 }
            else t) := by
  refine ⟨by decide, by decide, by decide⟩

/-- C3 (amended): restricted to page states satisfying the slotted-page
representation invariant (as every reachable state does), `deleteRecord` on
a valid in-range slot id shifts the bytes `[offset+length, freeSpaceOffset)`
left by `length`, decrements `freeSpaceOffset` by `length`, removes the slot
from the directory, decrements `numberOfSlots`, subtracts `length` from the
offset of every surviving slot whose original offset exceeds the deleted
offset, sets the dirty flag, returns `true`, and the slot ids of records at
positions greater than `slotId` shift down by one. -/
theorem deleteRecord_spec_inv (p : Page) (slotId : Int) (s : Slot)
    (IH : PageInv p) (h0 : 0 ≤ slotId) (h1 : slotId < p.header.numberOfSlots)
    (hs : p.slotDirectory.get? slotId.toNat = some s) :
    (p.deleteRecord slotId).2 = true
    ∧ (p.deleteRecord slotId).1.header.freeSpaceOffset
        = p.header.freeSpaceOffset - s.length
    ∧ (p.deleteRecord slotId).1.header.numberOfSlots
        = p.header.numberOfSlots - 1
    ∧ (p.deleteRecord slotId).1.header.dirty = true
    ∧ (p.deleteRecord slotId).1.slotDirectory
        = (p.slotDirectory.eraseIdx slotId.toNat).map (fun t =>
            if s.offset < t.offset then { t with offset := t.offset - s.length }
            else t)
    ∧ (p.deleteRecord slotId).1.data.take s.offset.toNat
        = p.data.take s.offset.toNat
    ∧ ((p.deleteRecord slotId).1.data.drop s.offset.toNat).take
          (p.header.freeSpaceOffset - (s.offset + s.length)).toNat
        = (p.data.drop (s.offset.toNat + s.length.toNat)).take
            (p.header.freeSpaceOffset - (s.offset + s.length)).toNat
    ∧ (∀ j : Nat, slotId.toNat < j →
        (p.deleteRecord slotId).1.slotDirectory.get? (j - 1)
          = (p.slotDirectory.get? j).map (fun t =>
              if s.offset < t.offset then { t with offset := t.offset - s.length }
              else t)) := by
  have hor' : ¬(slotId < 0 ∨ p.header.numberOfSlots ≤ slotId) := by omega
  have hklen : slotId.toNat < p.slotDirectory.length := by
    have := IH.slotsLen; omega
  have hsg : s = p.slotDirectory.get ⟨slotId.toNat, hklen⟩ := by
    have : p.slotDirectory.get? slotId.toNat
        = some (p.slotDirectory.get ⟨slotId.toNat, hklen⟩) := by
      rw [List.get?_eq_getElem?, List.getElem?_eq_getElem hklen]
      rfl
    rw [hs] at this
    exact Option.some.inj this
  have hmm := IH.contig.mem (List.get_mem p.slotDirectory slotId.toNat hklen)
  rw [← hsg] at hmm
  obtain ⟨hs0, hsend, hslen, hsval⟩ := hmm
  have hdecomp := hsg ▸ list_decomp hklen
  have herase : p.slotDirectory.eraseIdx slotId.toNat
      = p.slotDirectory.take slotId.toNat
        ++ p.slotDirectory.drop (slotId.toNat + 1) :=
    List.eraseIdx_eq_take_drop_succ p.slotDirectory slotId.toNat
  have hl1len : (p.slotDirectory.take slotId.toNat).length = slotId.toNat := by
    simp only [List.length_take]
    omega
  have hl2len : (p.slotDirectory.drop (slotId.toNat + 1)).length
      = p.slotDirectory.length - slotId.toNat - 1 := by
    simp only [List.length_drop]
    omega
  obtain ⟨m, hcl1, hcons⟩ := ContigFrom.append_iff.mp (hdecomp ▸ IH.contig)
  obtain ⟨hoffm, hlenpos, hvalm, hrest⟩ := contigFrom_cons.mp hcons
  have hl1mem : ∀ t ∈ p.slotDirectory.take slotId.toNat,
      ¬s.offset < t.offset := by
    intro t ht
    obtain ⟨ht1, ht2, ht3, ht4⟩ := hcl1.mem ht
    omega
  have hl2mem : ∀ t ∈ p.slotDirectory.drop (slotId.toNat + 1),
      s.offset < t.offset := by
    intro t ht
    obtain ⟨ht1, ht2, ht3, ht4⟩ := hrest.mem ht
    omega
  have hmaps : mapFrom (fun i t =>
      if slotId.toNat ≤ i ∧ (i : Int) < p.header.numberOfSlots - 1 then
        { t with offset := t.offset - s.length }
      else t) 0 (p.slotDirectory.eraseIdx slotId.toNat)
      = p.slotDirectory.take slotId.toNat
        ++ (p.slotDirectory.drop (slotId.toNat + 1)).map (fun t =>
          { t with offset := t.offset - s.length }) := by
    rw [herase, mapFrom_append]
    congr 1
    · refine mapFrom_eq_self _ 0 ?_
      intro j t hj hj2
      rw [if_neg]
      rw [hl1len] at hj2
      omega
    · rw [Nat.zero_add, hl1len]
      refine mapFrom_eq_map _ slotId.toNat ?_
      intro j t hj hj2
      rw [if_pos]
      refine ⟨hj, ?_⟩
      rw [hl2len] at hj2
      have := IH.slotsLen
      omega
  have hclaimmap : (p.slotDirectory.eraseIdx slotId.toNat).map (fun t =>
      if s.offset < t.offset then { t with offset := t.offset - s.length }
      else t)
      = p.slotDirectory.take slotId.toNat
        ++ (p.slotDirectory.drop (slotId.toNat + 1)).map (fun t =>
          { t with offset := t.offset - s.length }) := by
    rw [herase, List.map_append]
    congr 1
    · rw [List.map_congr_left (g := id) ?_, List.map_id]
      intro t ht
      rw [if_neg (hl1mem t ht)]
      rfl
    · refine List.map_congr_left ?_
      intro t ht
      rw [if_pos (hl2mem t ht)]
  simp only [Page.deleteRecord, if_neg hor', hs, hsval, Bool.true_eq_false,
    if_false]
  refine ⟨trivial, trivial, trivial, trivial, ?_, ?_, ?_, ?_⟩
  · rw [hmaps, hclaimmap]
  · by_cases hba : 0 < p.header.freeSpaceOffset - (s.offset + s.length)
    · rw [if_pos hba]
      have hol : (p.data.take s.offset.toNat).length = s.offset.toNat := by
        have := IH.dataLen
        have := IH.fso_le
        simp only [List.length_take, IH.dataLen, DsizeNat]
        simp only [Dsize, PAGE_SIZE, sizeofPageHeader] at *
        omega
      rw [List.append_assoc, List.take_left' hol]
    · rw [if_neg hba]
  · by_cases hba : 0 < p.header.freeSpaceOffset - (s.offset + s.length)
    · rw [if_pos hba]
      have hol : (p.data.take s.offset.toNat).length = s.offset.toNat := by
        have := IH.fso_le
        simp only [List.length_take, IH.dataLen, DsizeNat]
        simp only [Dsize, PAGE_SIZE, sizeofPageHeader] at *
        omega
      have hml : ((p.data.drop (s.offset.toNat + s.length.toNat)).take
          (p.header.freeSpaceOffset - (s.offset + s.length)).toNat).length
          = (p.header.freeSpaceOffset - (s.offset + s.length)).toNat := by
        have := IH.fso_le
        simp only [List.length_take, List.length_drop, IH.dataLen, DsizeNat]
        simp only [Dsize, PAGE_SIZE, sizeofPageHeader] at *
        omega
      rw [List.append_assoc, List.drop_left' hol, List.take_left' hml]
    · rw [if_neg hba]
      have hz : (p.header.freeSpaceOffset - (s.offset + s.length)).toNat = 0 := by
        omega
      simp [hz]
  · intro j hj
    rw [hmaps]
    have hj1 : (p.slotDirectory.take slotId.toNat).length ≤ j - 1 := by
      rw [hl1len]; omega
    rw [List.get?_append_right hj1, List.get?_map, hl1len]
    conv_rhs => rw [hdecomp]
    have hj2 : (p.slotDirectory.take slotId.toNat).length ≤ j := by
      rw [hl1len]; omega
    rw [List.get?_append_right hj2, hl1len]
    rw [show j - slotId.toNat = (j - slotId.toNat - 1) + 1 from by omega]
    rw [show (s :: p.slotDirectory.drop (slotId.toNat + 1)).get?
          ((j - slotId.toNat - 1) + 1)
        = (p.slotDirectory.drop (slotId.toNat + 1)).get? (j - slotId.toNat - 1)
      from rfl]
    rw [show j - 1 - slotId.toNat = j - slotId.toNat - 1 from by omega]
    cases hcase : (p.slotDirectory.drop (slotId.toNat + 1)).get?
        (j - slotId.toNat - 1) with
    | none => rfl
    | some t =>
      have ht : t ∈ p.slotDirectory.drop (slotId.toNat + 1) :=
        List.get?_mem hcase
      simp [hl2mem t ht]

/-- C3 (amended) witness: deleting the only record of a one-record page. -/
theorem deleteRecord_spec_inv_witness :
    PageInv (Page.empty.insertRecord [7, 7] 2).1
    ∧ (0 : Int) ≤ 0
    ∧ (0 : Int) < (Page.empty.insertRecord [7, 7] 2).1.header.numberOfSlots
    ∧ (Page.empty.insertRecord [7, 7] 2).1.slotDirectory.get? (0 : Int).toNat
        = some ⟨0, 2, true⟩
    ∧ ((Page.empty.insertRecord [7, 7] 2).1.deleteRecord 0).2 = true :=
  have hinv : PageInv (Page.empty.insertRecord [7, 7] 2).1 :=
    reachable_pageInv
      (Reachable.ins Page.empty [7, 7] 2 Reachable.empty (by decide) (by decide))
  ⟨hinv, by decide, by decide, by decide,
    (deleteRecord_spec_inv (Page.empty.insertRecord [7, 7] 2).1 0 ⟨0, 2, true⟩
      hinv (by decide) (by decide) (by decide)).1⟩

/-! ### Victim selection: `std::min_element` over the comparator -/

/-- Eviction rank of a frame: unpinned frames (`pinCount == 0`) rank below
pinned ones. -/
def pinKey (f : Frame) : Int := if f.pinCount = 0 then 0 else 1

/-- Strict order decided by the `findVictim` comparator. -/
def keyLt (a b : Frame) : Prop :=
  pinKey a < pinKey b ∨ (pinKey a = pinKey b ∧ a.lastAccessTime < b.lastAccessTime)

/-- Reflexive companion of `keyLt`. -/
def keyLe (a b : Frame) : Prop :=
  pinKey a < pinKey b ∨ (pinKey a = pinKey b ∧ a.lastAccessTime ≤ b.lastAccessTime)

theorem frameLess_iff (a b : Frame) : frameLess a b = true ↔ keyLt a b := by
  simp only [frameLess, keyLt, pinKey]
  by_cases ha : a.pinCount = 0 <;> by_cases hb : b.pinCount = 0 <;>
    simp [ha, hb] <;> omega

theorem keyLe_refl (a : Frame) : keyLe a a := Or.inr ⟨rfl, le_refl _⟩

theorem keyLe_of_not_keyLt {a b : Frame} (h : ¬keyLt a b) : keyLe b a := by
  simp only [keyLt, keyLe] at *
  omega

theorem keyLe_trans {a b c : Frame} (h1 : keyLe a b) (h2 : keyLe b c) :
    keyLe a c := by
  simp only [keyLe] at *
  omega

theorem keyLt_of_le_of_lt {a b c : Frame} (h1 : keyLe a b) (h2 : keyLt b c) :
    keyLt a c := by
  simp only [keyLt, keyLe] at *
  omega

theorem keyLt_of_lt_of_le {a b c : Frame} (h1 : keyLt a b) (h2 : keyLe b c) :
    keyLt a c := by
  simp only [keyLt, keyLe] at *
  omega


theorem keyLe_of_keyLt {a b : Frame} (h : keyLt a b) : keyLe a b := by
  simp only [keyLt, keyLe] at *
  omega

theorem minElemAux_spec : ∀ (l : List Frame) (bf : Frame) (bi i : Nat),
    bi ≤ i →
    (((minElemAux l (bi, bf) i).1 = bi ∧ (minElemAux l (bi, bf) i).2 = bf)
      ∨ ∃ j, ∃ hj : j < l.length, (minElemAux l (bi, bf) i).1 = i + j
          ∧ (minElemAux l (bi, bf) i).2 = l.get ⟨j, hj⟩)
    ∧ keyLe (minElemAux l (bi, bf) i).2 bf
    ∧ (¬keyLt (minElemAux l (bi, bf) i).2 bf →
        (minElemAux l (bi, bf) i).1 = bi ∧ (minElemAux l (bi, bf) i).2 = bf)
    ∧ (∀ j (hj : j < l.length),
        keyLe (minElemAux l (bi, bf) i).2 (l.get ⟨j, hj⟩)
        ∧ (¬keyLt (minElemAux l (bi, bf) i).2 (l.get ⟨j, hj⟩) →
            (minElemAux l (bi, bf) i).1 ≤ i + j)) := by
  intro l
  induction l with
  | nil =>
    intro bf bi i hbi
    refine ⟨Or.inl ⟨rfl, rfl⟩, keyLe_refl bf, fun _ => ⟨rfl, rfl⟩, ?_⟩
    intro j hj
    simp at hj
  | cons g rest ih =>
    intro bf bi i hbi
    by_cases hg : frameLess g bf = true
    · have hglt : keyLt g bf := (frameLess_iff g bf).mp hg
      have heq : minElemAux (g :: rest) (bi, bf) i
          = minElemAux rest (i, g) (i + 1) := by
        simp [minElemAux, hg]
      rw [heq]
      obtain ⟨hm, hle, hnl, hall⟩ := ih g i (i + 1) (by omega)
      have hrbf : keyLt (minElemAux rest (i, g) (i + 1)).2 bf :=
        keyLt_of_le_of_lt hle hglt
      refine ⟨?_, keyLe_of_keyLt hrbf, fun hn => absurd hrbf hn, ?_⟩
      · rcases hm with ⟨h1, h2⟩ | ⟨j, hj, h1, h2⟩
        · exact Or.inr ⟨0, by simp, by omega, h2⟩
        · refine Or.inr ⟨j + 1, by simpa using Nat.succ_lt_succ hj, by omega, ?_⟩
          exact h2
      · intro j hj
        cases j with
        | zero =>
          refine ⟨hle, fun hn => ?_⟩
          rw [(hnl hn).1]
          omega
        | succ j' =>
          have hj' : j' < rest.length := by simpa using hj
          refine ⟨(hall j' hj').1, fun hn => ?_⟩
          have := (hall j' hj').2 hn
          omega
    · have hg' : frameLess g bf = false := by
        revert hg
        cases frameLess g bf <;> simp
      have hgn : ¬keyLt g bf := by
        rw [← frameLess_iff, hg']
        simp
      have heq : minElemAux (g :: rest) (bi, bf) i
          = minElemAux rest (bi, bf) (i + 1) := by
        simp [minElemAux, hg']
      rw [heq]
      obtain ⟨hm, hle, hnl, hall⟩ := ih bf bi (i + 1) (by omega)
      refine ⟨?_, hle, hnl, ?_⟩
      · rcases hm with ⟨h1, h2⟩ | ⟨j, hj, h1, h2⟩
        · exact Or.inl ⟨h1, h2⟩
        · refine Or.inr ⟨j + 1, by simpa using Nat.succ_lt_succ hj, by omega, ?_⟩
          exact h2
      · intro j hj
        cases j with
        | zero =>
          refine ⟨keyLe_trans hle (keyLe_of_not_keyLt hgn), fun hn => ?_⟩
          by_cases hrb : keyLt (minElemAux rest (bi, bf) (i + 1)).2 bf
          · exact absurd (keyLt_of_lt_of_le hrb (keyLe_of_not_keyLt hgn)) hn
          · rw [(hnl hrb).1]
            omega
        | succ j' =>
          have hj' : j' < rest.length := by simpa using hj
          refine ⟨(hall j' hj').1, fun hn => ?_⟩
          have := (hall j' hj').2 hn
          omega

theorem pinKey_eq_zero {f : Frame} : pinKey f = 0 ↔ f.pinCount = 0 := by
  by_cases h : f.pinCount = 0 <;> simp [pinKey, h]

theorem keyLe_last {a b : Frame} (ha : a.pinCount = 0) (hb : b.pinCount = 0)
    (h : keyLe a b) : a.lastAccessTime ≤ b.lastAccessTime := by
  simp [keyLe, pinKey, ha, hb] at h
  exact h

theorem not_keyLt_of_eq_last {a b : Frame} (ha : a.pinCount = 0)
    (hb : b.pinCount = 0) (h : b.lastAccessTime = a.lastAccessTime) :
    ¬keyLt a b := by
  simp [keyLt, pinKey, ha, hb, h]

theorem keyLe_unpinned {a b : Frame} (hb : b.pinCount = 0) (h : keyLe a b) :
    a.pinCount = 0 := by
  rcases h with h | h
  · rw [pinKey_eq_zero.mpr hb] at h
    simp only [pinKey] at h
    by_cases ha : a.pinCount = 0
    · exact ha
    · simp [ha] at h
  · rw [← pinKey_eq_zero, h.1, pinKey_eq_zero]
    exact hb

theorem findVictim_spec (frames : List Frame) :
    (findVictim frames = -1 ↔ ∀ f ∈ frames, f.pinCount ≠ 0)
    ∧ ∀ i : Nat, findVictim frames = (i : Int) →
        ∃ hi : i < frames.length,
          (frames.get ⟨i, hi⟩).pinCount = 0
          ∧ ∀ (j : Nat) (hj : j < frames.length),
              (frames.get ⟨j, hj⟩).pinCount = 0 →
              (frames.get ⟨i, hi⟩).lastAccessTime
                  ≤ (frames.get ⟨j, hj⟩).lastAccessTime
              ∧ ((frames.get ⟨j, hj⟩).lastAccessTime
                  = (frames.get ⟨i, hi⟩).lastAccessTime → i ≤ j) := by
  cases frames with
  | nil =>
    constructor
    · simp [findVictim]
    · intro i h
      simp only [findVictim] at h
      omega
  | cons f rest =>
    obtain ⟨hm, hle, hnl, hall⟩ := minElemAux_spec rest f 0 1 (by omega)
    by_cases hpin : (minElemAux rest (0, f) 1).2.pinCount = 0
    · have hfv : findVictim (f :: rest)
          = ((minElemAux rest (0, f) 1).1 : Int) := by
        simp [findVictim, hpin]
      constructor
      · refine iff_of_false (by rw [hfv]; omega) ?_
        intro hall'
        rcases hm with ⟨h1, h2⟩ | ⟨j, hj, h1, h2⟩
        · exact hall' f (List.mem_cons_self f rest) (h2 ▸ hpin)
        · exact hall' (rest.get ⟨j, hj⟩)
            (List.mem_cons_of_mem f (List.get_mem rest j hj)) (h2 ▸ hpin)
      · intro i hi
        rw [hfv] at hi
        have hieq : (minElemAux rest (0, f) 1).1 = i := by exact_mod_cast hi
        rcases hm with ⟨h1, h2⟩ | ⟨j0, hj0, h1, h2⟩
        · -- the minimum is the head frame, i = 0
          have hi0 : i = 0 := by omega
          subst hi0
          refine ⟨by simp, ?_, ?_⟩
          · show f.pinCount = 0
            exact h2 ▸ hpin
          · intro j hj hjpin
            cases j with
            | zero => exact ⟨le_refl _, fun _ => le_refl 0⟩
            | succ j' =>
              have hj' : j' < rest.length := by simpa using hj
              have hkle : keyLe f (rest.get ⟨j', hj'⟩) := h2 ▸ (hall j' hj').1
              refine ⟨keyLe_last (h2 ▸ hpin) hjpin hkle, fun _ => by omega⟩
        · -- the minimum lies in `rest` at overall index j0 + 1
          have hi1 : i = j0 + 1 := by omega
          subst hi1
          have hlen : j0 + 1 < (f :: rest).length := by
            simp only [List.length_cons]
            omega
          refine ⟨hlen, ?_, ?_⟩
          · show (rest.get ⟨j0, hj0⟩).pinCount = 0
            exact h2 ▸ hpin
          · intro j hj hjpin
            cases j with
            | zero =>
              -- a tie with the head would have kept index 0
              constructor
              · exact keyLe_last (h2 ▸ hpin) hjpin (h2 ▸ hle)
              · intro htie
                exfalso
                have : ¬keyLt (minElemAux rest (0, f) 1).2 f := by
                  rw [h2]
                  exact not_keyLt_of_eq_last (h2 ▸ hpin) hjpin htie
                have := (hnl this).1
                omega
            | succ j' =>
              have hj' : j' < rest.length := by simpa using hj
              have hprop := hall j' hj'
              constructor
              · exact keyLe_last (h2 ▸ hpin) hjpin (h2 ▸ hprop.1)
              · intro htie
                have : ¬keyLt (minElemAux rest (0, f) 1).2 (rest.get ⟨j', hj'⟩) := by
                  rw [h2]
                  exact not_keyLt_of_eq_last (h2 ▸ hpin) hjpin htie
                have := hprop.2 this
                omega
    · have hfv : findVictim (f :: rest) = -1 := by
        simp [findVictim, hpin]
      constructor
      · refine iff_of_true hfv ?_
        intro f' hf' hf'pin
        have hkle : keyLe (minElemAux rest (0, f) 1).2 f' := by
          rcases List.mem_cons.mp hf' with rfl | hf'
          · exact hle
          · obtain ⟨⟨j, hj⟩, hget⟩ := List.mem_iff_get.mp hf'
            exact hget ▸ (hall j hj).1
        exact hpin (keyLe_unpinned hf'pin hkle)
      · intro i hi
        rw [hfv] at hi
        omega

theorem findEmpty_none_of_pinned : ∀ {l : List Frame},
    (∀ f ∈ l, f.pinCount ≠ 0) → findEmpty l = none := by
  intro l
  induction l with
  | nil => intro _; rfl
  | cons f rest ih =>
    intro h
    have hf := h f (List.mem_cons_self f rest)
    simp only [findEmpty]
    rw [if_neg (fun hc => hf hc.1),
      ih (fun g hg => h g (List.mem_cons_of_mem f hg))]
    rfl

theorem findEmpty_some : ∀ {l : List Frame} {idx : Nat},
    findEmpty l = some idx →
    ∃ f, l.get? idx = some f ∧ f.pinCount = 0 ∧ f.page.getPageId = -1 := by
  intro l
  induction l with
  | nil => intro idx h; simp [findEmpty] at h
  | cons f rest ih =>
    intro idx h
    simp only [findEmpty] at h
    by_cases hc : f.pinCount = 0 ∧ f.page.getPageId = -1
    · rw [if_pos hc] at h
      have h0 : idx = 0 := (Option.some.inj h).symm
      subst h0
      exact ⟨f, rfl, hc.1, hc.2⟩
    · rw [if_neg hc] at h
      cases hr : findEmpty rest with
      | none => rw [hr] at h; simp at h
      | some k =>
        rw [hr] at h
        simp only [Option.map] at h
        have hk : idx = k + 1 := (Option.some.inj h).symm
        subst hk
        obtain ⟨g, hg1, hg2, hg3⟩ := ih hr
        exact ⟨g, hg1, hg2, hg3⟩

theorem findVictim_cases (l : List Frame) :
    findVictim l = -1 ∨ ∃ i : Nat, findVictim l = (i : Int) := by
  cases l with
  | nil => exact Or.inl rfl
  | cons f rest =>
    by_cases hpin : (minElemAux rest (0, f) 1).2.pinCount = 0
    · exact Or.inr ⟨(minElemAux rest (0, f) 1).1, by simp [findVictim, hpin]⟩
    · exact Or.inl (by simp [findVictim, hpin])

theorem ptFind_erase_self : ∀ (t : List (Int × Int)) (k : Int),
    ptFind (ptErase t k) k = none := by
  intro t
  induction t with
  | nil => intro k; rfl
  | cons e rest ih =>
    intro k
    by_cases he : e.1 = k
    · simp only [ptErase, if_pos he]
      exact ih k
    · simp only [ptErase, if_neg he, ptFind, if_neg he]
      exact ih k

theorem ptFind_erase_none : ∀ (t : List (Int × Int)) (k k' : Int),
    ptFind t k = none → ptFind (ptErase t k') k = none := by
  intro t
  induction t with
  | nil => intro k k' _; rfl
  | cons e rest ih =>
    intro k k' h
    simp only [ptFind] at h
    by_cases hk : e.1 = k
    · rw [if_pos hk] at h
      exact absurd h (by simp)
    · rw [if_neg hk] at h
      by_cases hk' : e.1 = k'
      · simp only [ptErase, if_pos hk']
        exact ih k k' h
      · simp only [ptErase, if_neg hk', ptFind, if_neg hk]
        exact ih k k' h

/-- C5: when `fixPage` must evict (no hit, no empty frame), the victim
chosen by `findVictim` is, among frames with `pinCount == 0`, the one with
the smallest `lastAccessTime`, ties broken by lowest frame index; a pinned
frame is never chosen; and when every frame is pinned, `fixPage` returns
null and leaves the frames and the page table untouched. -/
theorem fixPage_victim_spec (frames : List Frame) (i : Nat)
    (hvic : findVictim frames = (i : Int))
    (pool : BufferPool) (read : Int → Page → Option Page) (now pageId : Int)
    (isWrite : Bool)
    (hmiss : ptFind pool.pageTable pageId = none)
    (hpin : ∀ f ∈ pool.frames, f.pinCount ≠ 0) :
    (∃ hi : i < frames.length,
      (frames.get ⟨i, hi⟩).pinCount = 0
      ∧ ∀ (j : Nat) (hj : j < frames.length),
          (frames.get ⟨j, hj⟩).pinCount = 0 →
          (frames.get ⟨i, hi⟩).lastAccessTime
              ≤ (frames.get ⟨j, hj⟩).lastAccessTime
          ∧ ((frames.get ⟨j, hj⟩).lastAccessTime
              = (frames.get ⟨i, hi⟩).lastAccessTime → i ≤ j))
    ∧ findVictim pool.frames = -1
    ∧ BufferPool.fixPage read now pool pageId isWrite = (pool, none) := by
  refine ⟨(findVictim_spec frames).2 i hvic, ?_, ?_⟩
  · exact (findVictim_spec pool.frames).1.mpr hpin
  · have hfe := findEmpty_none_of_pinned hpin
    have hfv := (findVictim_spec pool.frames).1.mpr hpin
    simp [BufferPool.fixPage, hmiss, hfe, hfv]

/-- Frames with distinct pin states and access times for the C5 witness. -/
def c5frames : List Frame :=
  [⟨Page.empty, 1, false, 0⟩, ⟨Page.empty, 0, false, 5⟩,
   ⟨Page.empty, 0, false, 3⟩]

/-- A pool whose single frame is pinned, for the C5 witness. -/
def c5pool : BufferPool :=
  { frames := [⟨Page.setPageId Page.empty 7, 1, false, 0⟩],
    pageTable := [(7, 0)] }

/-- C5 witness: the LRU unpinned frame (index 2) is selected, and fixing a
new page in a fully pinned pool returns null without touching the pool. -/
theorem fixPage_victim_spec_witness :
    findVictim c5frames = ((2 : Nat) : Int)
    ∧ ptFind c5pool.pageTable 3 = none
    ∧ (∀ f ∈ c5pool.frames, f.pinCount ≠ 0)
    ∧ BufferPool.fixPage (fun _ q => some q) 9 c5pool 3 false
        = (c5pool, none) :=
  ⟨by decide, by decide, by decide,
    (fixPage_victim_spec c5frames 2 (by decide) c5pool (fun _ q => some q)
      9 3 false (by decide) (by decide)).2.2⟩

/-- C9: when `fixPage` misses and the disk read fails, it returns null, no
frame is modified (in particular the involved frame keeps `pinCount == 0`),
the requested page id is not installed in the page table, and if eviction
had begun (no empty frame, a victim was selected) the victim's old page id
has been removed from the page table. -/
theorem fixPage_read_fail_spec (pool : BufferPool)
    (read : Int → Page → Option Page) (now pageId : Int) (isWrite : Bool)
    (hmiss : ptFind pool.pageTable pageId = none)
    (hfail : ∀ q : Page, read pageId q = none) :
    (BufferPool.fixPage read now pool pageId isWrite).2 = none
    ∧ (BufferPool.fixPage read now pool pageId isWrite).1.frames = pool.frames
    ∧ ptFind (BufferPool.fixPage read now pool pageId isWrite).1.pageTable
        pageId = none
    ∧ (∀ idx : Nat, findEmpty pool.frames = some idx →
        (BufferPool.fixPage read now pool pageId isWrite).1 = pool
        ∧ ∃ f, pool.frames.get? idx = some f ∧ f.pinCount = 0)
    ∧ (findEmpty pool.frames = none →
        ∀ i : Nat, findVictim pool.frames = (i : Int) →
        ∃ f, pool.frames.get? i = some f ∧ f.pinCount = 0
          ∧ ptFind (BufferPool.fixPage read now pool pageId isWrite).1.pageTable
              f.page.getPageId = none
          ∧ (BufferPool.fixPage read now pool pageId isWrite).1.pageTable
              = ptErase pool.pageTable f.page.getPageId) := by
  cases hfe : findEmpty pool.frames with
  | some idx =>
    obtain ⟨f, hg, hp0, hpid⟩ := findEmpty_some hfe
    have heq : BufferPool.fixPage read now pool pageId isWrite = (pool, none) := by
      simp [BufferPool.fixPage, hmiss, hfe, hg, hfail]
      cases pool.frames[idx]? <;> rfl
    rw [heq]
    refine ⟨rfl, rfl, hmiss, ?_, ?_⟩
    · intro idx' hidx'
      have : idx = idx' := Option.some.inj hidx'
      subst this
      exact ⟨rfl, f, hg, hp0⟩
    · intro hnone
      exact absurd hnone (by simp)
  | none =>
    rcases findVictim_cases pool.frames with hv | ⟨i0, hv⟩
    · have heq : BufferPool.fixPage read now pool pageId isWrite
          = (pool, none) := by
        simp [BufferPool.fixPage, hmiss, hfe, hv]
      rw [heq]
      refine ⟨rfl, rfl, hmiss, ?_, ?_⟩
      · intro idx' hidx'
        exact absurd hidx' (by simp)
      · intro _ i hvi
        rw [hv] at hvi
        exact absurd hvi (by omega)
    · obtain ⟨hi0, hp0, hminim⟩ := (findVictim_spec pool.frames).2 i0 hv
      have hg : pool.frames.get? i0
          = some (pool.frames.get ⟨i0, hi0⟩) := by
        rw [List.get?_eq_getElem?, List.getElem?_eq_getElem hi0]
        rfl
      have hne : ¬(findVictim pool.frames = -1) := by
        rw [hv]
        omega
      have htn : (findVictim pool.frames).toNat = i0 := by
        rw [hv]
        exact Int.toNat_natCast i0
      have hg2 : pool.frames[i0]? = some (pool.frames.get ⟨i0, hi0⟩) := by
        rw [List.getElem?_eq_getElem hi0]
        rfl
      have heq : BufferPool.fixPage read now pool pageId isWrite
          = (BufferPool.mk pool.frames (ptErase pool.pageTable
              (pool.frames.get ⟨i0, hi0⟩).page.getPageId), none) := by
        simp [BufferPool.fixPage, hmiss, hfe, hne, htn, hg, hg2, hfail]
      rw [heq]
      refine ⟨rfl, rfl, ptFind_erase_none _ _ _ hmiss, ?_, ?_⟩
      · intro idx' hidx'
        exact absurd hidx' (by simp)
      · intro _ i hvi
        have : i = i0 := by
          rw [hv] at hvi
          exact_mod_cast hvi.symm
        subst this
        exact ⟨pool.frames.get ⟨i, hi0⟩, hg, hp0,
          ptFind_erase_self _ _, rfl⟩

/-- A pool whose single frame holds page 7 unpinned, for the C9 witness. -/
def c9pool : BufferPool :=
  { frames := [⟨Page.setPageId Page.empty 7, 0, false, 0⟩],
    pageTable := [(7, 0)] }

/-- C9 witness: fixing page 3 with a failing disk read returns null. -/
theorem fixPage_read_fail_spec_witness :
    ptFind c9pool.pageTable 3 = none
    ∧ (BufferPool.fixPage (fun _ _ => none) 9 c9pool 3 false).2 = none :=
  ⟨by decide,
    (fixPage_read_fail_spec c9pool (fun _ _ => none) 9 3 false (by decide)
      (fun _ => rfl)).1⟩

/-- A pool whose single frame holds page 5 with `pinCount == 0`, used to
refute and then amend the C6 no-op claim. -/
def c6pool : BufferPool :=
  { frames := [⟨Page.setPageId Page.empty 5, 0, false, 0⟩],
    pageTable := [(5, 0)] }

/-- C6 counterexample: unfixing page 5 of `c6pool` (whose frame has
`pinCount == 0`) with `markDirty = true` is not a no-op: the frame's dirty
flag flips to true and its `lastAccessTime` is refreshed (the pin count does
stay 0). -/
theorem unfixPage_pin_zero_not_noop :
    ((BufferPool.unfixPage c6pool 1 5 true).frames.get? 0).map Frame.isDirty
        = some true
    ∧ (c6pool.frames.get? 0).map Frame.isDirty = some false
    ∧ ((BufferPool.unfixPage c6pool 1 5 true).frames.get? 0).map
        Frame.lastAccessTime = some 1
    ∧ (c6pool.frames.get? 0).map Frame.lastAccessTime = some 0
    ∧ ((BufferPool.unfixPage c6pool 1 5 true).frames.get? 0).map
        Frame.pinCount = some 0 :=
  ⟨by decide, by decide, by decide, by decide, by decide⟩

/-- C6 (amended): unfixing a page id that is not in the page table is a
complete no-op.  Unfixing a known page whose frame has `pinCount == 0`
leaves the pin count at 0 — it never underflows below 0 — but still ORs the
frame's dirty flag with `markDirty` and refreshes its `lastAccessTime`; the
page table itself is never modified. -/
theorem unfixPage_spec (pool : BufferPool) (now handleId : Int) (d : Bool) :
    (ptFind pool.pageTable handleId = none →
      pool.unfixPage now handleId d = pool)
    ∧ (∀ (idx : Int) (f : Frame),
        ptFind pool.pageTable handleId = some idx →
        pool.frames.get? idx.toNat = some f →
        (pool.unfixPage now handleId d).frames
          = pool.frames.set idx.toNat
              ⟨f.page, if 0 < f.pinCount then f.pinCount - 1 else f.pinCount,
               if d then true else f.isDirty, now⟩
        ∧ (pool.unfixPage now handleId d).pageTable = pool.pageTable
        ∧ (f.pinCount = 0 →
            (if 0 < f.pinCount then f.pinCount - 1 else f.pinCount) = 0)
        ∧ (0 ≤ f.pinCount →
            0 ≤ (if 0 < f.pinCount then f.pinCount - 1 else f.pinCount))) := by
  constructor
  · intro h
    simp [BufferPool.unfixPage, h]
  · intro idx f h1 h2
    refine ⟨?_, ?_, ?_, ?_⟩
    · show (BufferPool.unfixPage pool now handleId d).frames = _
      simp only [BufferPool.unfixPage, h1, h2]
      by_cases hp : 0 < f.pinCount <;> cases d <;> simp [hp]
    · simp only [BufferPool.unfixPage, h1, h2]
    · intro h0
      rw [if_neg (by omega)]
      exact h0
    · intro h0
      by_cases hp : 0 < f.pinCount
      · rw [if_pos hp]; omega
      · rw [if_neg hp]; omega

/-- C6 (amended) witness: an unknown page id is a full no-op, and unfixing
the unpinned frame of `c6pool` updates exactly the dirty flag and
timestamp. -/
theorem unfixPage_spec_witness :
    ptFind c6pool.pageTable 9 = none
    ∧ BufferPool.unfixPage c6pool 1 9 true = c6pool
    ∧ (BufferPool.unfixPage c6pool 1 5 true).frames
        = c6pool.frames.set 0 ⟨Page.setPageId Page.empty 5, 0, true, 1⟩ :=
  ⟨by decide, (unfixPage_spec c6pool 1 9 true).1 (by decide),
    ((unfixPage_spec c6pool 1 5 true).2 0
      ⟨Page.setPageId Page.empty 5, 0, false, 0⟩ (by decide) rfl).1⟩

/-- C7: the offset actually computed by `readPage`/`writePage` is the 32-bit
product `int offset = pageId * PAGE_SIZE`, which wraps at
`pageId = 524288` (`2^31 / 4096`) to `-2^31` instead of the exact product
`2^31`; the 64-bit helper `getOffset` would give the exact value but is
never called by either function. -/
theorem offset_32bit_overflow :
    readPageOffset 524288 = -2147483648
    ∧ (524288 : Int) * PAGE_SIZE = 2147483648
    ∧ readPageOffset 524288 ≠ (524288 : Int) * PAGE_SIZE
    ∧ getOffset 524288 = (524288 : Int) * PAGE_SIZE :=
  ⟨by decide, by decide, by decide, by decide⟩

theorem allocSeq_spec : ∀ (k : Nat) (dm : DiskManager),
    (allocSeq k dm).2
        = List.map (fun j : Nat => dm.numPages + (j : Int)) (List.range k)
    ∧ (allocSeq k dm).1.numPages = dm.numPages + (k : Int) := by
  intro k
  induction k with
  | zero => intro dm; simp [allocSeq]
  | succ k ih =>
    intro dm
    have h1 : (dm.allocateNewPage true).2 = dm.numPages := by
      simp [DiskManager.allocateNewPage, DiskManager.writePage]
    have h2 : (dm.allocateNewPage true).1.numPages = dm.numPages + 1 := by
      simp [DiskManager.allocateNewPage, DiskManager.writePage]
    obtain ⟨ih1, ih2⟩ := ih (dm.allocateNewPage true).1
    constructor
    · show (dm.allocateNewPage true).2 :: (allocSeq k (dm.allocateNewPage true).1).2
          = List.map (fun j : Nat => dm.numPages + (j : Int)) (List.range (k + 1))
      rw [ih1, h1, h2, List.range_succ_eq_map, List.map_cons, List.map_map]
      congr 1
      · simp
      · refine List.map_congr_left ?_
        intro j _
        simp only [Function.comp_apply]
        push_cast
        ring
    · show (allocSeq k (dm.allocateNewPage true).1).1.numPages = _
      rw [ih2, h2]
      push_cast
      ring

/-- C8: `allocateNewPage` writes an empty page (id set to the pre-call
`numPages`) at index `numPages` and returns exactly that id, or `-1` when
the I/O fails (leaving the state unchanged); `writePage` increments
`numPages` only on a successful write and only in the `pageId == numPages`
append case; consequently a run of `k` successful allocations returns the
consecutive ids `numPages, numPages+1, ...` and `getNumberOfPages` grows by
exactly one per successful allocation. -/
theorem allocateNewPage_spec (dm : DiskManager) (pageId : Int) (page : Page)
    (io : Bool) (k : Nat) :
    ((dm.writePage pageId page io).1.numPages
      = if io = true ∧ pageId = dm.numPages then dm.numPages + 1
        else dm.numPages)
    ∧ (dm.allocateNewPage true).2 = dm.numPages
    ∧ DiskManager.getNumberOfPages (dm.allocateNewPage true).1
        = DiskManager.getNumberOfPages dm + 1
    ∧ (dm.allocateNewPage true).1.file dm.numPages
        = some (Page.serialize (Page.setPageId Page.empty dm.numPages))
    ∧ (dm.allocateNewPage false).2 = -1
    ∧ (dm.allocateNewPage false).1 = dm
    ∧ (allocSeq k dm).2
        = List.map (fun j : Nat => dm.numPages + (j : Int)) (List.range k)
    ∧ DiskManager.getNumberOfPages (allocSeq k dm).1
        = DiskManager.getNumberOfPages dm + (k : Int) := by
  refine ⟨?_, ?_, ?_, ?_, ?_, ?_, (allocSeq_spec k dm).1, (allocSeq_spec k dm).2⟩
  · by_cases h1 : pageId = dm.numPages <;> by_cases h2 : pageId < dm.numPages <;>
      cases io <;> simp [DiskManager.writePage, h1, h2]
  · simp [DiskManager.allocateNewPage, DiskManager.writePage]
  · simp [DiskManager.allocateNewPage, DiskManager.writePage,
      DiskManager.getNumberOfPages]
  · simp [DiskManager.allocateNewPage, DiskManager.writePage]
  · simp [DiskManager.allocateNewPage, DiskManager.writePage]
  · simp [DiskManager.allocateNewPage, DiskManager.writePage]
